import Mathlib

/-!
Verification of the StockPulse Extraction & Reconciliation Pipeline.

The repository ships the pipeline's design blueprint
(src/Documentation/StockPulse_Data_Extraction_System_Blueprint.md), a test
log (src/test_result.md) and a React frontend; the backend services the
blueprint describes (scoring engine, extraction pipeline) are not part of
the source tree.  The pipeline components below are therefore modelled
from the specification text, faithful to its words; the frontend
definitions at the end are translated from
src/frontend/src/pages/DataPipeline.jsx.
-/

namespace StockPulse

/-! ## Confidence scoring (spec section 4.4, blueprint appendix C.10) -/

/-- Modelled from the spec: the five priority tiers a FieldDefinition can
carry (critical/important/standard/optional/metadata); the backend field
registry is not in the source tree. -/
inductive Tier where
  | critical
  | important
  | standard
  | optionalTier
  | metadata
deriving DecidableEq

/-- Modelled from the spec: the per-field facts the confidence scorer reads
from the current ReconciledValue set of a symbol — whether the field is
populated, within its freshness threshold, sourced from several sources,
and whether those sources agree. -/
structure FieldState where
  tier : Tier
  populated : Bool
  fresh : Bool
  multiSource : Bool
  agrees : Bool
deriving DecidableEq

/-- A count rendered as a 0–100 percentage of a denominator; an empty
denominator yields 0 (a symbol with nothing populated scores 0). -/
def pct (num den : ℕ) : ℚ :=
  if den = 0 then 0 else (num : ℚ) / (den : ℚ) * 100

/-- Modelled from the spec: completeness — the percentage of the symbol's
fields that are populated. -/
def completeness (r : List FieldState) : ℚ :=
  pct (r.countP (·.populated)) r.length

/-- Modelled from the spec: freshness — the percentage of populated fields
within their staleness threshold. -/
def freshness (r : List FieldState) : ℚ :=
  pct (r.countP (fun f => f.populated && f.fresh)) (r.countP (·.populated))

/-- Modelled from the spec: agreement — the percentage of populated
multi-source fields whose sources agree (within tolerance). -/
def agreementScore (r : List FieldState) : ℚ :=
  pct (r.countP (fun f => f.populated && f.multiSource && f.agrees))
      (r.countP (fun f => f.populated && f.multiSource))

/-- Whether a field belongs to the optional/metadata tier group, which the
priority-weighted completeness weights together at 0.05. -/
def isOptMeta (f : FieldState) : Bool :=
  f.tier = Tier.optionalTier || f.tier = Tier.metadata

/-- Fill percentage of one tier group: populated fields of the group over
all fields of the group. -/
def tierFill (r : List FieldState) (grp : FieldState → Bool) : ℚ :=
  pct (r.countP (fun f => f.populated && grp f)) (r.countP grp)

/-- Modelled from the spec: priority-weighted completeness — the critical
tier's own fill percentage weighted 0.50, important 0.30, standard 0.15,
optional/metadata 0.05. -/
def priorityCoverage (r : List FieldState) : ℚ :=
  tierFill r (fun f => f.tier = Tier.critical) * (50 / 100)
    + tierFill r (fun f => f.tier = Tier.important) * (30 / 100)
    + tierFill r (fun f => f.tier = Tier.standard) * (15 / 100)
    + tierFill r isOptMeta * (5 / 100)

/-- Modelled from the spec (blueprint C.10): composite confidence score
0–100 = completeness × 0.40 + freshness × 0.30 + agreement × 0.15 +
priority coverage × 0.15. -/
def confidenceScore (r : List FieldState) : ℚ :=
  completeness r * (40 / 100) + freshness r * (30 / 100)
    + agreementScore r * (15 / 100) + priorityCoverage r * (15 / 100)

lemma pct_self (n : ℕ) (h : n ≠ 0) : pct n n = 100 := by
  have : (n : ℚ) ≠ 0 := Nat.cast_ne_zero.mpr h
  simp [pct, h, div_self this]

lemma pct_zero_num (d : ℕ) : pct 0 d = 0 := by
  by_cases h : d = 0 <;> simp [pct, h]

lemma pct_zero_den (n : ℕ) : pct n 0 = 0 := by
  simp [pct]

lemma countP_eq_countP_of_imp {l : List FieldState} {p q : FieldState → Bool}
    (h : ∀ f ∈ l, p f = q f) : l.countP p = l.countP q := by
  induction l with
  | nil => rfl
  | cons x xs ih =>
    have hx := h x (List.mem_cons_self x xs)
    have hxs : ∀ f ∈ xs, p f = q f := fun f hf => h f (List.mem_cons_of_mem x hf)
    simp [List.countP_cons, hx, ih hxs]

lemma countP_pos_of_exists {l : List FieldState} {p : FieldState → Bool}
    (h : ∃ f ∈ l, p f = true) : l.countP p ≠ 0 := by
  obtain ⟨f, hf, hp⟩ := h
  have : 0 < l.countP p := List.countP_pos_iff.mpr ⟨f, hf, hp⟩
  omega

/-- Claim C1: the composite confidence score is
0.40 × completeness + 0.30 × freshness + 0.15 × agreement +
0.15 × priority-weighted completeness, where the priority-weighted part
weights the critical tier's fill percentage at 0.50, important at 0.30,
standard at 0.15, and the optional/metadata group at 0.05; a record with
every field populated and fresh, every multi-source field agreeing, and
every tier group represented scores exactly 100, and a record with no
field populated scores 0. -/
theorem confidence_score_composite (r : List FieldState) :
    confidenceScore r =
        (40 / 100) * completeness r + (30 / 100) * freshness r
          + (15 / 100) * agreementScore r
          + (15 / 100)
              * (tierFill r (fun f => f.tier = Tier.critical) * (50 / 100)
                  + tierFill r (fun f => f.tier = Tier.important) * (30 / 100)
                  + tierFill r (fun f => f.tier = Tier.standard) * (15 / 100)
                  + tierFill r isOptMeta * (5 / 100))
      ∧ ((∀ f ∈ r, f.populated = true ∧ f.fresh = true)
          → (∀ f ∈ r, f.multiSource = true → f.agrees = true)
          → (∃ f ∈ r, f.multiSource = true)
          → (∃ f ∈ r, f.tier = Tier.critical)
          → (∃ f ∈ r, f.tier = Tier.important)
          → (∃ f ∈ r, f.tier = Tier.standard)
          → (∃ f ∈ r, isOptMeta f = true)
          → confidenceScore r = 100)
      ∧ ((∀ f ∈ r, f.populated = false) → confidenceScore r = 0) := by
  refine ⟨by unfold confidenceScore priorityCoverage; ring, ?_, ?_⟩
  · intro hpop hag hms hcrit himp hstd hopt
    have hpopT : ∀ f ∈ r, f.populated = true := fun f hf => (hpop f hf).1
    have hlen : r.countP (·.populated) = r.length :=
      List.countP_eq_length.mpr hpopT
    have hne : r.length ≠ 0 := by
      obtain ⟨f, hf, _⟩ := hcrit
      exact List.length_pos.mpr (List.ne_nil_of_mem hf) |>.ne'
    have hc : completeness r = 100 := by
      rw [completeness, hlen]; exact pct_self _ hne
    have hfr : freshness r = 100 := by
      rw [freshness]
      have : r.countP (fun f => f.populated && f.fresh) = r.countP (·.populated) :=
        countP_eq_countP_of_imp (fun f hf => by
          simp [(hpop f hf).1, (hpop f hf).2])
      rw [this, hlen]; exact pct_self _ hne
    have hagr : agreementScore r = 100 := by
      rw [agreementScore]
      have heq : r.countP (fun f => f.populated && f.multiSource && f.agrees)
          = r.countP (fun f => f.populated && f.multiSource) :=
        countP_eq_countP_of_imp (fun f hf => by
          by_cases hm : f.multiSource = true
          · simp [(hpop f hf).1, hm, hag f hf hm]
          · simp [Bool.eq_false_iff.mpr hm])
      have hden : r.countP (fun f => f.populated && f.multiSource) ≠ 0 := by
        obtain ⟨f, hf, hm⟩ := hms
        exact countP_pos_of_exists ⟨f, hf, by simp [(hpop f hf).1, hm]⟩
      rw [heq]; exact pct_self _ hden
    have htier : ∀ grp : FieldState → Bool, (∃ f ∈ r, grp f = true)
        → tierFill r grp = 100 := by
      intro grp hex
      rw [tierFill]
      have heq : r.countP (fun f => f.populated && grp f) = r.countP grp :=
        countP_eq_countP_of_imp (fun f hf => by simp [(hpop f hf).1])
      have hden : r.countP grp ≠ 0 := countP_pos_of_exists hex
      rw [heq]; exact pct_self _ hden
    have h1 := htier (fun f => f.tier = Tier.critical)
      (by obtain ⟨f, hf, h⟩ := hcrit; exact ⟨f, hf, by simp [h]⟩)
    have h2 := htier (fun f => f.tier = Tier.important)
      (by obtain ⟨f, hf, h⟩ := himp; exact ⟨f, hf, by simp [h]⟩)
    have h3 := htier (fun f => f.tier = Tier.standard)
      (by obtain ⟨f, hf, h⟩ := hstd; exact ⟨f, hf, by simp [h]⟩)
    have h4 := htier isOptMeta hopt
    rw [confidenceScore, priorityCoverage, hc, hfr, hagr, h1, h2, h3, h4]
    norm_num
  · intro hnone
    have hzero : ∀ p : FieldState → Bool, (∀ f ∈ r, p f = true → f.populated = true)
        → r.countP p = 0 := by
      intro p hp
      refine List.countP_eq_zero.mpr (fun f hf hpf => ?_)
      have := hp f hf hpf
      rw [hnone f hf] at this
      exact Bool.false_ne_true this
    have hc : completeness r = 0 := by
      rw [completeness, hzero (·.populated) (fun f _ h => h)]; exact pct_zero_num _
    have hfr : freshness r = 0 := by
      rw [freshness, hzero (·.populated) (fun f _ h => h)]; exact pct_zero_den _
    have hagr : agreementScore r = 0 := by
      rw [agreementScore,
        hzero (fun f => f.populated && f.multiSource && f.agrees)
          (fun f _ h => by simp at h; exact h.1.1)]
      exact pct_zero_num _
    have htier : ∀ grp : FieldState → Bool, tierFill r grp = 0 := by
      intro grp
      rw [tierFill, hzero (fun f => f.populated && grp f)
        (fun f _ h => by simp at h; exact h.1)]
      exact pct_zero_num _
    rw [confidenceScore, priorityCoverage, hc, hfr, hagr, htier, htier, htier, htier]
    norm_num

/-- A four-field record with one populated, fresh and agreeing field in
each tier group (the critical one multi-source). -/
def fullRecordSample : List FieldState :=
  [⟨Tier.critical, true, true, true, true⟩,
   ⟨Tier.important, true, true, false, false⟩,
   ⟨Tier.standard, true, true, false, false⟩,
   ⟨Tier.metadata, true, true, false, false⟩]

/-- An entirely unpopulated two-field record. -/
def emptyRecordSample : List FieldState :=
  [⟨Tier.critical, false, false, false, false⟩,
   ⟨Tier.standard, false, false, false, false⟩]

theorem confidence_score_composite_witness :
    confidenceScore fullRecordSample = 100 ∧ confidenceScore emptyRecordSample = 0 :=
  ⟨(confidence_score_composite fullRecordSample).2.1 (by decide) (by decide)
      (by decide) (by decide) (by decide) (by decide) (by decide),
   (confidence_score_composite emptyRecordSample).2.2 (by decide)⟩

/-! ## Retry / circuit-breaker wrapper (spec section 4.1, blueprint 6.2) -/

/-- Modelled from the spec: the circuit-breaker phases CLOSED, OPEN and
HALF_OPEN; the wrapper's implementation is not in the source tree. -/
inductive CBStatus where
  | closed
  | opened
  | halfOpen
deriving DecidableEq

/-- Modelled from the spec: per-source circuit-breaker configuration —
the rolling failure window (1 hour), the consecutive-failure threshold
(3), and the cooldown bounds. -/
structure CBConfig where
  windowLen : ℕ
  failureThreshold : ℕ
  maxCooldown : ℕ

/-- Modelled from the spec: the stored CircuitBreakerState of one source —
the stored phase (closed or open), the timestamps of the current
consecutive-failure streak, the current cooldown length and its expiry. -/
structure CBState where
  status : CBStatus
  failureTimes : List ℕ
  cooldown : ℕ
  cooldownExpiry : ℕ
deriving DecidableEq

/-- Outcome of an attempted source call. -/
inductive Outcome where
  | success
  | failure
deriving DecidableEq

/-- What the wrapper did with a requested call: actually attempted it, or
failed fast without calling the source (directing the caller to the next
fallback source). -/
inductive CallAction where
  | attempted (o : Outcome)
  | failFast
deriving DecidableEq

/-- The timestamps of the consecutive-failure streak still inside the
rolling window ending at `now`. -/
def recentFailures (cfg : CBConfig) (now : ℕ) (times : List ℕ) : List ℕ :=
  times.filter (fun t => now ≤ t + cfg.windowLen)

/-- The effective phase at time `now`: a stored OPEN whose cooldown has
expired is in its HALF_OPEN trial window. -/
def phase (s : CBState) (now : ℕ) : CBStatus :=
  if s.status = CBStatus.opened ∧ s.cooldownExpiry ≤ now then CBStatus.halfOpen
  else s.status

/-- Modelled from the spec: one wrapper decision for a call requested at
time `now` whose underlying operation would produce outcome `o`.  While
OPEN and before cooldown expiry the call fails fast; at or after expiry
exactly one HALF_OPEN trial call runs — success closes the breaker,
failure re-opens it with the cooldown doubled (capped).  In CLOSED the
call runs; a success clears the consecutive-failure streak, and a failure
that brings the streak inside the rolling window up to the threshold
trips the breaker OPEN. -/
def cbStep (cfg : CBConfig) (s : CBState) (now : ℕ) (o : Outcome) :
    CBState × CallAction :=
  match phase s now with
  | CBStatus.opened => (s, CallAction.failFast)
  | CBStatus.halfOpen =>
    match o with
    | Outcome.success =>
      (⟨CBStatus.closed, [], s.cooldown, s.cooldownExpiry⟩,
       CallAction.attempted Outcome.success)
    | Outcome.failure =>
      let c := min (2 * s.cooldown) cfg.maxCooldown
      (⟨CBStatus.opened, [], c, now + c⟩, CallAction.attempted Outcome.failure)
  | CBStatus.closed =>
    match o with
    | Outcome.success =>
      (⟨CBStatus.closed, [], s.cooldown, s.cooldownExpiry⟩,
       CallAction.attempted Outcome.success)
    | Outcome.failure =>
      let streak := now :: recentFailures cfg now s.failureTimes
      if cfg.failureThreshold ≤ streak.length then
        (⟨CBStatus.opened, streak, s.cooldown, now + s.cooldown⟩,
         CallAction.attempted Outcome.failure)
      else
        (⟨CBStatus.closed, streak, s.cooldown, s.cooldownExpiry⟩,
         CallAction.attempted Outcome.failure)

/-- Claim C2: a third consecutive failure inside the rolling window trips
a CLOSED breaker OPEN with the cooldown scheduled; while OPEN and before
cooldown expiry every requested call fails fast with the state untouched
(and those are the only fail-fast cases, so HALF_OPEN allows exactly one
trial call); the HALF_OPEN trial closes the breaker on success and
re-opens it with the cooldown doubled (capped) on failure. -/
theorem circuit_breaker_step (cfg : CBConfig) (s : CBState) (now : ℕ)
    (o : Outcome) :
    (s.status = CBStatus.closed
        → cfg.failureThreshold ≤ (recentFailures cfg now s.failureTimes).length + 1
        → (cbStep cfg s now Outcome.failure).1.status = CBStatus.opened
          ∧ (cbStep cfg s now Outcome.failure).1.cooldownExpiry = now + s.cooldown)
      ∧ ((cbStep cfg s now o).2 = CallAction.failFast
          ↔ s.status = CBStatus.opened ∧ now < s.cooldownExpiry)
      ∧ (s.status = CBStatus.opened → now < s.cooldownExpiry
          → cbStep cfg s now o = (s, CallAction.failFast))
      ∧ (phase s now = CBStatus.halfOpen
          → (cbStep cfg s now Outcome.success).1.status = CBStatus.closed
            ∧ (cbStep cfg s now Outcome.failure).1.status = CBStatus.opened
            ∧ (cbStep cfg s now Outcome.failure).1.cooldown
                = min (2 * s.cooldown) cfg.maxCooldown
            ∧ (cbStep cfg s now Outcome.failure).1.cooldownExpiry
                = now + min (2 * s.cooldown) cfg.maxCooldown) := by
  refine ⟨?_, ?_, ?_, ?_⟩
  · intro hcl hth
    have hph : phase s now = CBStatus.closed := by
      simp [phase, hcl]
    constructor <;> simp [cbStep, hph, hth]
  · constructor
    · intro h
      cases hst : s.status with
      | closed =>
        exfalso
        have hph : phase s now = CBStatus.closed := by simp [phase, hst]
        cases o with
        | success => simp [cbStep, hph] at h
        | failure =>
          by_cases hlen : cfg.failureThreshold
              ≤ (recentFailures cfg now s.failureTimes).length + 1
          · simp [cbStep, hph, hlen] at h
          · simp [cbStep, hph, hlen] at h
      | halfOpen =>
        exfalso
        have hph : phase s now = CBStatus.halfOpen := by simp [phase, hst]
        cases o with
        | success => simp [cbStep, hph] at h
        | failure => simp [cbStep, hph] at h
      | opened =>
        by_cases hexp : s.cooldownExpiry ≤ now
        · exfalso
          have hph : phase s now = CBStatus.halfOpen := by
            simp [phase, hst, hexp]
          cases o with
          | success => simp [cbStep, hph] at h
          | failure => simp [cbStep, hph] at h
        · exact ⟨rfl, by omega⟩
    · rintro ⟨h1, h2⟩
      have hcond : ¬(s.status = CBStatus.opened ∧ s.cooldownExpiry ≤ now) := by
        rintro ⟨_, hle⟩
        omega
      have hph : phase s now = CBStatus.opened := by
        simp [phase, hcond, h1]
        omega
      simp [cbStep, hph]
  · intro h1 h2
    have hcond : ¬(s.status = CBStatus.opened ∧ s.cooldownExpiry ≤ now) := by
      rintro ⟨_, hle⟩
      omega
    have hph : phase s now = CBStatus.opened := by
      simp [phase, hcond, h1]
      omega
    simp [cbStep, hph]
  · intro hph
    refine ⟨by simp [cbStep, hph], by simp [cbStep, hph], by simp [cbStep, hph],
      by simp [cbStep, hph]⟩

/-- Default circuit-breaker configuration of the blueprint: a one-hour
rolling window, three consecutive failures, cooldown capped at an hour. -/
def cbDefault : CBConfig := ⟨3600, 3, 3600⟩

/-- A source that already failed twice (at 100 s and 700 s) inside the
window, still CLOSED, with a 120 s cooldown. -/
def cbTwoFailures : CBState := ⟨CBStatus.closed, [700, 100], 120, 0⟩

/-- A source whose breaker is OPEN until 900 s. -/
def cbOpenState : CBState := ⟨CBStatus.opened, [800, 700, 100], 120, 900⟩

theorem circuit_breaker_step_witness :
    ((cbStep cbDefault cbTwoFailures 800 Outcome.failure).1.status
        = CBStatus.opened
      ∧ (cbStep cbDefault cbTwoFailures 800 Outcome.failure).1.cooldownExpiry
        = 920)
    ∧ cbStep cbDefault cbOpenState 850 Outcome.failure
        = (cbOpenState, CallAction.failFast)
    ∧ (cbStep cbDefault cbOpenState 900 Outcome.success).1.status
        = CBStatus.closed
    ∧ (cbStep cbDefault cbOpenState 900 Outcome.failure).1.cooldown = 240 := by
  refine ⟨?_, ?_, ?_, ?_⟩
  · have h := (circuit_breaker_step cbDefault cbTwoFailures 800
      Outcome.failure).1 (by decide) (by decide)
    exact ⟨h.1, h.2⟩
  · exact (circuit_breaker_step cbDefault cbOpenState 850
      Outcome.failure).2.2.1 (by decide) (by decide)
  · exact ((circuit_breaker_step cbDefault cbOpenState 900
      Outcome.success).2.2.2 (by decide)).1
  · exact ((circuit_breaker_step cbDefault cbOpenState 900
      Outcome.failure).2.2.2 (by decide)).2.2.1

/-! ## Reconciler (spec section 4.4, blueprint 6.6) -/

/-- Modelled from the spec: one SourceObservation of a field value, with
the rank of its source in the field's ordered preference hierarchy
(0 = most preferred: calculated, then primary official source, then
secondary, then tertiary). -/
structure Obs where
  source : ℕ
  value : ℚ
deriving DecidableEq

/-- Modelled from the spec: the ReconciledValue produced for one field —
the canonical value, every contributing observation retained, the
agreement verdict and the review flag. -/
structure Reconciled where
  canonical : ℚ
  contributing : List Obs
  agreement : Bool
  flaggedForReview : Bool
deriving DecidableEq

/-- The top-preference observation: the first observation with the lowest
source rank. -/
def topPrefIn : List Obs → Option Obs
  | [] => none
  | o :: os =>
    match topPrefIn os with
    | none => some o
    | some b => some (if b.source < o.source then b else o)

/-- Whether a numeric observation lies within the configured relative
tolerance of the canonical value. -/
def withinTol (tol canonical v : ℚ) : Bool :=
  decide (|v - canonical| ≤ tol * |canonical|)

/-- Modelled from the spec: reconcile one field's observations — the
top-preference value is canonical, all observations are retained,
observations within tolerance of the top-preference value count as
agreeing, and divergence beyond tolerance flags the field for review
without blocking the commit. -/
def reconcile (tol : ℚ) (obs : List Obs) : Option Reconciled :=
  match topPrefIn obs with
  | none => none
  | some top =>
    let agree := obs.all (fun o => withinTol tol top.value o.value)
    some ⟨top.value, obs, agree, !agree⟩

lemma topPrefIn_cons_ne_none (x : Obs) (xs : List Obs) :
    topPrefIn (x :: xs) ≠ none := by
  rw [topPrefIn]
  cases topPrefIn xs <;> simp

lemma topPrefIn_spec (obs : List Obs) (t : Obs) (h : topPrefIn obs = some t) :
    t ∈ obs ∧ ∀ o ∈ obs, t.source ≤ o.source := by
  induction obs generalizing t with
  | nil => simp [topPrefIn] at h
  | cons x xs ih =>
    rw [topPrefIn] at h
    cases hxs : topPrefIn xs with
    | none =>
      rw [hxs] at h
      have hx : t = x := by simpa using h.symm
      subst hx
      refine ⟨List.mem_cons_self _ _, fun o ho => ?_⟩
      rcases List.mem_cons.mp ho with rfl | ho2
      · exact le_refl _
      · cases xs with
        | nil => simp at ho2
        | cons y ys => exact absurd hxs (topPrefIn_cons_ne_none y ys)
    | some b =>
      rw [hxs] at h
      obtain ⟨hb, hmin⟩ := ih b hxs
      by_cases hlt : b.source < x.source
      · have ht : t = b := by simpa [hlt] using h.symm
        subst ht
        refine ⟨List.mem_cons_of_mem _ hb, fun o ho => ?_⟩
        rcases List.mem_cons.mp ho with rfl | ho2
        · exact le_of_lt hlt
        · exact hmin o ho2
      · have ht : t = x := by simpa [hlt] using h.symm
        subst ht
        refine ⟨List.mem_cons_self _ _, fun o ho => ?_⟩
        rcases List.mem_cons.mp ho with rfl | ho2
        · exact le_refl _
        · exact le_trans (Nat.le_of_not_lt hlt) (hmin o ho2)

/-- Claim C3: reconciling a non-empty observation set always commits a
result whose canonical value is the value of a top-preference
observation — in particular one of the contributing observations'
values — retains every observation, reports agreement exactly when every
observation is within the configured relative tolerance of the canonical
value, and raises the review flag exactly on disagreement (which does not
block the commit). -/
theorem reconcile_canonical_top (tol : ℚ) (obs : List Obs) (h : obs ≠ []) :
    ∃ r, reconcile tol obs = some r
      ∧ (∃ o ∈ obs, r.canonical = o.value ∧ ∀ p ∈ obs, o.source ≤ p.source)
      ∧ r.contributing = obs
      ∧ (r.agreement = true
          ↔ ∀ o ∈ obs, |o.value - r.canonical| ≤ tol * |r.canonical|)
      ∧ r.flaggedForReview = !r.agreement := by
  cases hobs : topPrefIn obs with
  | none =>
    exfalso
    cases obs with
    | nil => exact h rfl
    | cons x xs => exact absurd hobs (topPrefIn_cons_ne_none x xs)
  | some top =>
    obtain ⟨hmem, hmin⟩ := topPrefIn_spec obs top hobs
    refine ⟨⟨top.value, obs, obs.all (fun o => withinTol tol top.value o.value),
        !obs.all (fun o => withinTol tol top.value o.value)⟩,
      by rw [reconcile, hobs], ⟨top, hmem, rfl, hmin⟩, rfl, ?_, rfl⟩
    constructor
    · intro hall o ho
      have := List.all_eq_true.mp hall o ho
      exact of_decide_eq_true this
    · intro hall
      exact List.all_eq_true.mpr (fun o ho => decide_eq_true (hall o ho))

/-- The spec's worked example: primary observes 100.0 and secondary
observes 101.5. -/
def obsAgreeing : List Obs := [⟨0, 100⟩, ⟨1, 203 / 2⟩]

/-- The spec's divergent example: primary observes 100.0 and secondary
observes 110.0. -/
def obsDivergent : List Obs := [⟨0, 100⟩, ⟨1, 110⟩]

theorem reconcile_canonical_top_witness :
    (∃ r, reconcile (2 / 100) obsAgreeing = some r
        ∧ (∃ o ∈ obsAgreeing, r.canonical = o.value
            ∧ ∀ p ∈ obsAgreeing, o.source ≤ p.source)
        ∧ r.contributing = obsAgreeing
        ∧ (r.agreement = true
            ↔ ∀ o ∈ obsAgreeing, |o.value - r.canonical| ≤ (2 / 100) * |r.canonical|)
        ∧ r.flaggedForReview = !r.agreement)
    ∧ reconcile (2 / 100) obsAgreeing
        = some ⟨100, obsAgreeing, true, false⟩
    ∧ reconcile (2 / 100) obsDivergent
        = some ⟨100, obsDivergent, false, true⟩ := by
  refine ⟨reconcile_canonical_top (2 / 100) obsAgreeing (by simp [obsAgreeing]),
    ?_, ?_⟩
  · have h1 : withinTol (2 / 100) 100 100 = true := by
      rw [withinTol, decide_eq_true_iff]
      rw [show (100 : ℚ) - 100 = 0 by norm_num]
      simp
    have h2 : withinTol (2 / 100) 100 (203 / 2) = true := by
      rw [withinTol, decide_eq_true_iff]
      rw [show (203 : ℚ) / 2 - 100 = 3 / 2 by norm_num,
        show |(100 : ℚ)| = 100 by rw [abs_of_pos]; norm_num,
        show |(3 : ℚ) / 2| = 3 / 2 by rw [abs_of_pos] ; norm_num]
      norm_num
    simp [reconcile, topPrefIn, obsAgreeing, h1, h2]
  · have h1 : withinTol (2 / 100) 100 100 = true := by
      rw [withinTol, decide_eq_true_iff]
      rw [show (100 : ℚ) - 100 = 0 by norm_num]
      simp
    have h2 : withinTol (2 / 100) 100 110 = false := by
      rw [withinTol, decide_eq_false_iff_not]
      rw [show (110 : ℚ) - 100 = 10 by norm_num,
        show |(100 : ℚ)| = 100 by rw [abs_of_pos]; norm_num,
        show |(10 : ℚ)| = 10 by rw [abs_of_pos] ; norm_num]
      norm_num
    simp [reconcile, topPrefIn, obsDivergent, h1, h2]

/-! ## Calculation engine null propagation (spec sections 4.3 and 7,
blueprint 5.3) -/

/-- Modelled from the spec: the result the calculation engine records for
one field — a computed value, or an explicit null tagged with a reason
(never a fabricated zero). -/
inductive CalcResult where
  | ok (v : ℚ)
  | nullWith (reason : String)
deriving DecidableEq

/-- Modelled from the spec: one calculated FieldDefinition — its
identifier, its declared upstream dependencies, and its formula over the
dependency values; the formula yields none where the ratio is undefined
(zero denominator). -/
structure CalcField where
  id : String
  deps : List String
  formula : List ℚ → Option ℚ

/-- Collects the staged values of the declared dependencies, reporting the
first missing dependency by name. -/
def gatherDeps (avail : String → Option ℚ) : List String → Except String (List ℚ)
  | [] => Except.ok []
  | d :: ds =>
    match avail d with
    | none => Except.error d
    | some v =>
      match gatherDeps avail ds with
      | Except.error e => Except.error e
      | Except.ok vs => Except.ok (v :: vs)

/-- Modelled from the spec: evaluate one calculated field — a missing
upstream value yields null tagged with the missing-dependency reason, an
undefined formula (zero denominator) yields null tagged with a reason, and
otherwise the computed value is returned. -/
def computeField (avail : String → Option ℚ) (fd : CalcField) : CalcResult :=
  match gatherDeps avail fd.deps with
  | Except.error d =>
    CalcResult.nullWith ("missing-dependency " ++ d ++ " for " ++ fd.id)
  | Except.ok vs =>
    match fd.formula vs with
    | none => CalcResult.nullWith ("undefined-value for " ++ fd.id)
    | some v => CalcResult.ok v

/-- Modelled from the spec: evaluate every calculated field of the
registry independently; no field's evaluation aborts the engine for the
others. -/
def computeAll (avail : String → Option ℚ) (fds : List CalcField) :
    List (String × CalcResult) :=
  fds.map (fun fd => (fd.id, computeField avail fd))

lemma gatherDeps_error_of_missing (avail : String → Option ℚ)
    (deps : List String) (d : String) (hd : d ∈ deps) (hmiss : avail d = none) :
    ∃ e, gatherDeps avail deps = Except.error e := by
  induction deps with
  | nil => simp at hd
  | cons x xs ih =>
    rcases List.mem_cons.mp hd with rfl | hxs
    · exact ⟨d, by rw [gatherDeps, hmiss]⟩
    · cases hx : avail x with
      | none => exact ⟨x, by rw [gatherDeps, hx]⟩
      | some v =>
        obtain ⟨e, he⟩ := ih hxs
        exact ⟨e, by rw [gatherDeps, hx, he]⟩

lemma string_append_ne_empty_left (s t : String) (h : s ≠ "") : s ++ t ≠ "" := by
  intro habs
  apply h
  have hd : s.data ++ t.data = [] := congrArg String.data habs
  have : s.data = [] := List.append_eq_nil.mp hd |>.1
  cases s
  simpa [String.ext_iff] using this

/-- Claim C4: a calculated field with a missing declared dependency
evaluates to null with a non-empty tagged reason — never a value, so never
0, and never an empty reason; a field whose dependencies are all staged
but whose formula is undefined (zero denominator) likewise evaluates to
null with a non-empty reason; and the engine produces exactly one result
per registered field, so no field's failure aborts the others. -/
theorem compute_null_propagation (avail : String → Option ℚ) (fd : CalcField)
    (fds : List CalcField) :
    ((∃ d ∈ fd.deps, avail d = none)
        → ∃ reason, computeField avail fd = CalcResult.nullWith reason
            ∧ reason ≠ "")
      ∧ (∀ vs, gatherDeps avail fd.deps = Except.ok vs
          → fd.formula vs = none
          → ∃ reason, computeField avail fd = CalcResult.nullWith reason
              ∧ reason ≠ "")
      ∧ (computeAll avail fds).map Prod.fst = fds.map (·.id)
      ∧ (∀ v, computeField avail fd = CalcResult.ok v
          → ∀ d ∈ fd.deps, avail d ≠ none) := by
  refine ⟨?_, ?_, ?_, ?_⟩
  · rintro ⟨d, hd, hmiss⟩
    obtain ⟨e, he⟩ := gatherDeps_error_of_missing avail fd.deps d hd hmiss
    refine ⟨"missing-dependency " ++ e ++ " for " ++ fd.id,
      by rw [computeField, he], ?_⟩
    exact string_append_ne_empty_left _ _
      (string_append_ne_empty_left _ _
        (string_append_ne_empty_left _ _ (by decide)))
  · intro vs hok hnone
    exact ⟨"undefined-value for " ++ fd.id, by simp [computeField, hok, hnone],
      string_append_ne_empty_left _ _ (by decide)⟩
  · simp [computeAll]
  · intro v hv d hd hmiss
    obtain ⟨e, he⟩ := gatherDeps_error_of_missing avail fd.deps d hd hmiss
    rw [computeField, he] at hv
    exact CalcResult.noConfusion hv

/-- A staging area holding only total equity, with net income absent. -/
def availOnlyEquity : String → Option ℚ :=
  fun d => if d = "total_equity" then some 0 else none

/-- Return on equity as the blueprint declares it: net income over total
equity, undefined when equity is zero. -/
def roeField : CalcField :=
  ⟨"roe", ["net_income", "total_equity"],
    fun vs =>
      match vs with
      | [n, e] => if e = 0 then none else some (n / e * 100)
      | _ => none⟩

theorem compute_null_propagation_witness :
    (∃ reason, computeField availOnlyEquity roeField = CalcResult.nullWith reason
        ∧ reason ≠ "")
    ∧ (∃ reason,
        computeField (fun _ => some 0) roeField = CalcResult.nullWith reason
          ∧ reason ≠ "") := by
  constructor
  · exact (compute_null_propagation availOnlyEquity roeField []).1
      ⟨"net_income", by decide, by rw [availOnlyEquity]; decide⟩
  · exact (compute_null_propagation (fun _ => some 0) roeField []).2.1 [0, 0]
      (by rw [show roeField.deps = ["net_income", "total_equity"] from rfl]
          rfl)
      (by rfl)

/-! ## Validation gate (spec sections 4.5 and 7, blueprint appendix D) -/

/-- Modelled from the spec: the validation gate's verdict on one staged
value. -/
inductive GateOutcome where
  | accepted
  | acceptedWithWarning
  | rejected
deriving DecidableEq

/-- Modelled from the spec: a committed field value with its staleness
marker and a quality-warning flag consumed by the confidence scorer. -/
structure Committed (α : Type) where
  value : α
  stale : Bool
  warning : Bool
deriving DecidableEq

/-- Modelled from the spec: the gate's commit decision for one staged
value — a hard rejection discards the staged value and retains the prior
committed value (when there is one) marked stale, a warning accepts the
value with the quality flag set, and an acceptance commits the value
fresh. -/
def gateCommit {α : Type} (rule : α → GateOutcome)
    (prior : Option (Committed α)) (staged : α) : Option (Committed α) :=
  match rule staged with
  | GateOutcome.rejected =>
    prior.map (fun c => ⟨c.value, true, c.warning⟩)
  | GateOutcome.acceptedWithWarning => some ⟨staged, false, true⟩
  | GateOutcome.accepted => some ⟨staged, false, false⟩

/-- Modelled from the spec: the gate applied to a whole staged set — each
field is decided independently against its prior committed value, and the
run always produces one verdict per staged field (a rejection is never a
fatal error for the run). -/
def gateRun {α : Type} (rule : α → GateOutcome)
    (prior : String → Option (Committed α)) (staged : List (String × α)) :
    List (String × Option (Committed α)) :=
  staged.map (fun p => (p.1, gateCommit rule (prior p.1) p.2))

/-- Claim C5: when a hard-rejection rule rejects a staged value, the
previously committed value for the field is retained with its value
unchanged and its staleness marker set (and a field with no prior value
stays uncommitted rather than taking the bad value); a non-rejected value
is committed; and the gate yields a verdict for every staged field of the
run, so a rejection is never propagated as a fatal error. -/
theorem gate_rejection_retains_prior {α : Type} (rule : α → GateOutcome)
    (prior : String → Option (Committed α)) (staged : List (String × α))
    (c : Committed α) (v : α) :
    (rule v = GateOutcome.rejected
        → gateCommit rule (some c) v = some ⟨c.value, true, c.warning⟩
          ∧ gateCommit rule none v = none)
      ∧ (rule v ≠ GateOutcome.rejected
          → ∃ w, gateCommit rule (some c) v = some ⟨v, false, w⟩)
      ∧ (gateRun rule prior staged).map Prod.fst = staged.map Prod.fst := by
  refine ⟨?_, ?_, ?_⟩
  · intro hrej
    exact ⟨by simp [gateCommit, hrej], by simp [gateCommit, hrej]⟩
  · intro hacc
    cases hr : rule v with
    | accepted => exact ⟨false, by simp [gateCommit, hr]⟩
    | acceptedWithWarning => exact ⟨true, by simp [gateCommit, hr]⟩
    | rejected => exact absurd hr hacc
  · simp [gateRun]

/-- One day's staged price record, as validated by the blueprint's
hard-rejection rules. -/
structure PriceRecord where
  openPx : ℚ
  highPx : ℚ
  lowPx : ℚ
  closePx : ℚ
  volume : ℚ
deriving DecidableEq

/-- Modelled from the spec (blueprint D.1, rules V-HR-01, V-HR-02 and
V-HR-05): reject a price record unless low ≤ open ≤ high,
low ≤ close ≤ high, all four prices are positive, and volume is
non-negative. -/
def priceHardRule (p : PriceRecord) : GateOutcome :=
  if p.lowPx ≤ p.openPx ∧ p.openPx ≤ p.highPx
      ∧ p.lowPx ≤ p.closePx ∧ p.closePx ≤ p.highPx
      ∧ 0 < p.openPx ∧ 0 < p.highPx ∧ 0 < p.lowPx ∧ 0 < p.closePx
      ∧ 0 ≤ p.volume
  then GateOutcome.accepted
  else GateOutcome.rejected

/-- A price record whose open exceeds its high: hard-rejected. -/
def badPriceRecord : PriceRecord := ⟨120, 110, 100, 105, 1000⟩

/-- The previously committed price record for the same field. -/
def priorPriceRecord : Committed PriceRecord :=
  ⟨⟨101, 112, 99, 108, 900⟩, false, false⟩

theorem gate_rejection_retains_prior_witness :
    gateCommit priceHardRule (some priorPriceRecord) badPriceRecord
        = some ⟨priorPriceRecord.value, true, false⟩
      ∧ gateCommit priceHardRule none badPriceRecord = none :=
  (gate_rejection_retains_prior priceHardRule (fun _ => none) []
    priorPriceRecord badPriceRecord).1 (by decide)

/-! ## Idempotent commit upserts (spec sections 1.4 and 6, blueprint 10.6) -/

/-- Modelled from the spec: the storage key of a committed ReconciledValue
or audit record — (symbol, field, period). -/
structure CommitKey where
  symbol : String
  field : String
  period : String
deriving DecidableEq

/-- Modelled from the spec: one committed record handed to the storage
collaborator. -/
structure CommitRecord where
  key : CommitKey
  value : ℚ
deriving DecidableEq

/-- Modelled from the spec: idempotent upsert keyed by
(symbol, field, period) — an existing record under the key is replaced in
place, otherwise the record is appended. -/
def upsert (r : CommitRecord) : List CommitRecord → List CommitRecord
  | [] => [r]
  | x :: xs => if x.key = r.key then r :: xs else x :: upsert r xs

/-- Modelled from the spec: committing an extraction run's records to the
store, one upsert per record. -/
def commitRun (store : List CommitRecord) (run : List CommitRecord) :
    List CommitRecord :=
  run.foldl (fun s r => upsert r s) store

lemma upsert_keys (r : CommitRecord) (s : List CommitRecord) :
    (upsert r s).map (·.key)
      = if r.key ∈ s.map (·.key) then s.map (·.key)
        else s.map (·.key) ++ [r.key] := by
  induction s with
  | nil => simp [upsert]
  | cons x xs ih =>
    by_cases hx : x.key = r.key
    · simp [upsert, hx]
    · have hne : r.key ≠ x.key := fun h => hx h.symm
      by_cases hmem : r.key ∈ xs.map (·.key)
      · simp [upsert, hx, ih, hmem, hne]
      · simp [upsert, hx, ih, hmem, hne]

lemma mem_keys_upsert (r : CommitRecord) (s : List CommitRecord) :
    r.key ∈ (upsert r s).map (·.key) := by
  rw [upsert_keys]
  by_cases hmem : r.key ∈ s.map (·.key) <;> simp [hmem]

lemma mem_keys_upsert_of_mem (k : CommitKey) (r : CommitRecord)
    (s : List CommitRecord) (h : k ∈ s.map (·.key)) :
    k ∈ (upsert r s).map (·.key) := by
  rw [upsert_keys]
  by_cases hmem : r.key ∈ s.map (·.key) <;> simp [hmem, h]

lemma upsert_idem (r : CommitRecord) (s : List CommitRecord) :
    upsert r (upsert r s) = upsert r s := by
  induction s with
  | nil => simp [upsert]
  | cons x xs ih =>
    by_cases hx : x.key = r.key
    · simp [upsert, hx]
    · simp [upsert, hx, ih]

lemma upsert_comm_of_mem (r q : CommitRecord) (s : List CommitRecord)
    (hmem : r.key ∈ s.map (·.key)) (hne : q.key ≠ r.key) :
    upsert r (upsert q s) = upsert q (upsert r s) := by
  have hrq : r.key ≠ q.key := fun h => hne h.symm
  induction s with
  | nil => simp at hmem
  | cons x xs ih =>
    by_cases hxr : x.key = r.key
    · have hxq : x.key ≠ q.key := fun h => hrq (hxr.symm.trans h)
      simp [upsert, hxr, hxq, hrq, hne]
    · by_cases hxq : x.key = q.key
      · simp [upsert, hxq, hne]
      · have hmem2 : r.key ∈ xs.map (·.key) := by
          rcases List.mem_map.mp hmem with ⟨a, ha, hak⟩
          rcases List.mem_cons.mp ha with rfl | ha2
          · exact absurd hak hxr
          · exact List.mem_map.mpr ⟨a, ha2, hak⟩
        simp [upsert, hxr, hxq, ih hmem2]

lemma commitRun_upsert_comm (r : CommitRecord) (run : List CommitRecord)
    (s : List CommitRecord) (hmem : r.key ∈ s.map (·.key))
    (hout : r.key ∉ run.map (·.key)) :
    upsert r (commitRun s run) = commitRun (upsert r s) run := by
  induction run generalizing s with
  | nil => simp [commitRun]
  | cons q qs ih =>
    have hq : q.key ≠ r.key := by
      intro h
      exact hout (by simp [h])
    have hout2 : r.key ∉ qs.map (·.key) := fun h => hout (by simp [h])
    calc upsert r (commitRun s (q :: qs))
        = upsert r (commitRun (upsert q s) qs) := by simp [commitRun]
      _ = commitRun (upsert r (upsert q s)) qs :=
          ih (upsert q s) (mem_keys_upsert_of_mem r.key q s hmem) hout2
      _ = commitRun (upsert q (upsert r s)) qs := by
          rw [upsert_comm_of_mem r q s hmem hq]
      _ = commitRun (upsert r s) (q :: qs) := by simp [commitRun]

lemma keys_commitRun_nodup (store run : List CommitRecord)
    (h : (store.map (·.key)).Nodup) :
    ((commitRun store run).map (·.key)).Nodup := by
  induction run generalizing store with
  | nil => simpa [commitRun]
  | cons r rs ih =>
    have hup : ((upsert r store).map (·.key)).Nodup := by
      rw [upsert_keys]
      by_cases hmem : r.key ∈ store.map (·.key)
      · simpa [hmem]
      · simp only [hmem, if_false]
        refine List.Nodup.append h (List.nodup_singleton _) ?_
        intro a ha hb
        rw [List.mem_singleton] at hb
        exact hmem (hb ▸ ha)
    simpa [commitRun] using ih (upsert r store) hup

lemma commitRun_idem_aux (run : List CommitRecord) :
    ∀ store, (run.map (·.key)).Nodup →
      commitRun (commitRun store run) run = commitRun store run := by
  induction run with
  | nil =>
    intro store _
    simp [commitRun]
  | cons r rs ih =>
    intro store hnodup
    have hnd : (rs.map (·.key)).Nodup := (List.nodup_cons.mp (by simpa using hnodup)).2
    have hout : r.key ∉ rs.map (·.key) := (List.nodup_cons.mp (by simpa using hnodup)).1
    have hkey : r.key ∈ (upsert r store).map (·.key) := mem_keys_upsert r store
    calc commitRun (commitRun store (r :: rs)) (r :: rs)
        = commitRun (upsert r (commitRun (upsert r store) rs)) rs := by
          simp [commitRun]
      _ = commitRun (commitRun (upsert r (upsert r store)) rs) rs := by
          rw [commitRun_upsert_comm r rs (upsert r store) hkey hout]
      _ = commitRun (commitRun (upsert r store) rs) rs := by
          rw [upsert_idem]
      _ = commitRun (upsert r store) rs := ih (upsert r store) hnd
      _ = commitRun store (r :: rs) := by simp [commitRun]

/-- Claim C6: because every commit is an idempotent upsert keyed by
(symbol, field, period), re-running an identical extraction run against
the resulting store reproduces it exactly — the ReconciledValues are
identical — and commits never duplicate a (symbol, field, period) record
in the audit store. -/
theorem commit_run_idempotent (store run : List CommitRecord)
    (hnodup : (run.map (·.key)).Nodup) :
    commitRun (commitRun store run) run = commitRun store run
      ∧ ((store.map (·.key)).Nodup
          → ((commitRun store run).map (·.key)).Nodup) :=
  ⟨commitRun_idem_aux run store hnodup, keys_commitRun_nodup store run⟩

/-- A two-record extraction run for one symbol and period. -/
def runSample : List CommitRecord :=
  [⟨⟨"TCS", "pe", "2024Q4"⟩, 28⟩, ⟨⟨"TCS", "pb", "2024Q4"⟩, 11⟩]

/-- A store already holding an older value for one of the keys. -/
def storeSample : List CommitRecord := [⟨⟨"TCS", "pe", "2024Q4"⟩, 27⟩]

theorem commit_run_idempotent_witness :
    commitRun (commitRun storeSample runSample) runSample
        = commitRun storeSample runSample
      ∧ ((commitRun storeSample runSample).map (·.key)).Nodup := by
  have h := commit_run_idempotent storeSample runSample (by decide)
  exact ⟨h.1, h.2 (by decide)⟩

/-! ## Exponential backoff retries (spec section 4.1, blueprint 6.2) -/

/-- Modelled from the spec: the deterministic part of the backoff delay
before retry attempt number `attempt` (counting from 0) —
base × 2 ^ attempt, capped at the maximum delay. -/
def backoffDelay (base cap : ℚ) (attempt : ℕ) : ℚ :=
  min (base * 2 ^ attempt) cap

/-- Modelled from the spec: the actual delay is the deterministic backoff
perturbed by a small random jitter. -/
def delayWithJitter (base cap : ℚ) (attempt : ℕ) (jitter : ℚ) : ℚ :=
  backoffDelay base cap attempt + jitter

/-- Modelled from the spec: the successive delays of one call, one per
retry attempt, up to the configured maximum retry count. -/
def retrySchedule (base cap : ℚ) (maxRetries : ℕ) : List ℚ :=
  (List.range maxRetries).map (backoffDelay base cap)

/-- Modelled from the spec: the retry loop — attempts the operation once
per remaining retry, returning the index of the first successful attempt
and giving up with none when the retry budget is exhausted. -/
def runRetries (op : ℕ → Bool) : ℕ → ℕ → Option ℕ
  | 0, _ => none
  | fuel + 1, attempt =>
    if op attempt then some attempt else runRetries op fuel (attempt + 1)

lemma runRetries_none_of_allFail (op : ℕ → Bool) (hop : ∀ a, op a = false) :
    ∀ fuel start, runRetries op fuel start = none := by
  intro fuel
  induction fuel with
  | zero => intro start; rfl
  | succ n ih =>
    intro start
    rw [runRetries, hop start]
    simpa using ih (start + 1)

/-- Claim C7: before every retry attempt below the configured maximum,
the delay is base × 2 ^ attempt whenever that is within the cap, is never
above the cap, and a jittered delay stays within the jitter bound of the
deterministic value; with the default base of 2 s and 5 retries the
schedule is exactly 2, 4, 8, 16, 32 seconds, and a call whose operation
keeps failing gives up after its 5 retries. -/
theorem retry_backoff_schedule (base cap jb jitter : ℚ) (attempt : ℕ)
    (op : ℕ → Bool) :
    (base * 2 ^ attempt ≤ cap → backoffDelay base cap attempt = base * 2 ^ attempt)
      ∧ backoffDelay base cap attempt ≤ cap
      ∧ (|jitter| ≤ jb
          → |delayWithJitter base cap attempt jitter - backoffDelay base cap attempt| ≤ jb)
      ∧ retrySchedule 2 60 5 = [2, 4, 8, 16, 32]
      ∧ (retrySchedule base cap 5).length = 5
      ∧ ((∀ a, op a = false) → runRetries op 5 0 = none) := by
  refine ⟨fun h => min_eq_left h, min_le_right _ _, ?_, ?_, by simp [retrySchedule], ?_⟩
  · intro hj
    have : delayWithJitter base cap attempt jitter - backoffDelay base cap attempt
        = jitter := by
      rw [delayWithJitter]
      ring
    rw [this]
    exact hj
  · show retrySchedule 2 60 5 = [2, 4, 8, 16, 32]
    rw [retrySchedule, show List.range 5 = [0, 1, 2, 3, 4] from rfl]
    simp only [List.map, backoffDelay]
    norm_num
  · intro hop
    exact runRetries_none_of_allFail op hop 5 0

theorem retry_backoff_schedule_witness :
    ((2 : ℚ) * 2 ^ 3 ≤ 60 ∧ backoffDelay 2 60 3 = 2 * 2 ^ 3)
      ∧ (|(1 : ℚ) / 4| ≤ 1 / 2
          ∧ |delayWithJitter 2 60 3 (1 / 4) - backoffDelay 2 60 3| ≤ 1 / 2)
      ∧ runRetries (fun _ => false) 5 0 = none := by
  have h := retry_backoff_schedule 2 60 (1 / 2) (1 / 4) 3 (fun _ => false)
  have h1 : (2 : ℚ) * 2 ^ 3 ≤ 60 := by norm_num
  have h2 : |(1 : ℚ) / 4| ≤ 1 / 2 := by
    rw [abs_of_pos] <;> norm_num
  exact ⟨⟨h1, h.1 h1⟩, ⟨h2, h.2.2.1 h2⟩, h.2.2.2.2.2 (fun _ => rfl)⟩

/-! ## Dependency-ordered calculation graph (spec section 4.3,
blueprint 5.2) -/

/-- Lexicographic strict order on character lists, by code point. -/
def charsLt : List Char → List Char → Bool
  | _, [] => false
  | [], _ :: _ => true
  | a :: as, b :: bs =>
    a.toNat < b.toNat || (a.toNat = b.toNat && charsLt as bs)

/-- Lexicographic strict order on field identifiers, used to break ties
deterministically. -/
def strLt (a b : String) : Bool :=
  charsLt a.data b.data

lemma charsLt_irrefl (l : List Char) : charsLt l l = false := by
  induction l with
  | nil => rfl
  | cons a as ih => simp [charsLt, ih]

lemma charsLt_trans (a : List Char) :
    ∀ b c, charsLt a b = true → charsLt b c = true → charsLt a c = true := by
  induction a with
  | nil =>
    intro b c hab hbc
    cases c with
    | nil =>
      cases b with
      | nil => simp [charsLt] at hab
      | cons y ys => simp [charsLt] at hbc
    | cons z zs => simp [charsLt]
  | cons x xs ih =>
    intro b c hab hbc
    cases b with
    | nil => simp [charsLt] at hab
    | cons y ys =>
      cases c with
      | nil => simp [charsLt] at hbc
      | cons z zs =>
        simp [charsLt] at hab hbc ⊢
        rcases hab with h1 | ⟨h1, h2⟩ <;> rcases hbc with h3 | ⟨h3, h4⟩
        · exact Or.inl (Nat.lt_trans h1 h3)
        · exact Or.inl (h3 ▸ h1)
        · exact Or.inl (h1 ▸ h3)
        · exact Or.inr ⟨h1.trans h3, ih ys zs h2 h4⟩

lemma strLt_irrefl (a : String) : strLt a a = false :=
  charsLt_irrefl a.data

lemma strLt_trans (a b c : String) (hab : strLt a b = true)
    (hbc : strLt b c = true) : strLt a c = true :=
  charsLt_trans a.data b.data c.data hab hbc

/-- Modelled from the spec: a FieldDefinition as the calculation engine
sees it — the field identifier and the identifiers of the upstream fields
it depends on (empty for source-extracted fields). -/
structure FieldDefn where
  id : String
  deps : List String
deriving DecidableEq

/-- Whether every declared dependency of a field has already been placed
in the order under construction. -/
def readyB (placed : List String) (fd : FieldDefn) : Bool :=
  fd.deps.all (fun d => decide (d ∈ placed))

/-- Removes from the list the ready field with the lexicographically
least identifier, if any field is ready. -/
def extractMinReady (placed : List String) :
    List FieldDefn → Option (FieldDefn × List FieldDefn)
  | [] => none
  | fd :: rest =>
    match extractMinReady placed rest with
    | none => if readyB placed fd then some (fd, rest) else none
    | some (best, rest2) =>
      if readyB placed fd && strLt fd.id best.id then some (fd, rest)
      else some (best, fd :: rest2)

/-- Kahn's algorithm with fuel: repeatedly place the least-identifier
ready field; when no field is ready and fields remain, the registry is
cyclic. -/
def kahnLoop : ℕ → List FieldDefn → List FieldDefn → Except String (List FieldDefn)
  | 0, remaining, acc =>
    match remaining with
    | [] => Except.ok acc
    | _ :: _ => Except.error "dependency cycle detected among calculated fields"
  | fuel + 1, remaining, acc =>
    match remaining with
    | [] => Except.ok acc
    | _ :: _ =>
      match extractMinReady (acc.map (·.id)) remaining with
      | none => Except.error "dependency cycle detected among calculated fields"
      | some (fd, rest) => kahnLoop fuel rest (acc ++ [fd])

/-- Whether some field declares a dependency outside the registry. -/
def hasMissingDep (ids : List String) (fds : List FieldDefn) : Bool :=
  fds.any (fun fd => fd.deps.any (fun d => decide (d ∉ ids)))

/-- Whether the registry declares the same field identifier twice. -/
def hasDupIds (l : List String) : Bool :=
  decide (¬ l.Nodup)

/-- Modelled from the spec: startup construction of the calculation
order — validate the FieldDefinition set (unique identifiers, no missing
dependency), then compute the deterministic topological order with ties
broken by field identifier; a cyclic or invalid registry fails fast with
a descriptive configuration error. -/
def buildOrder (fds : List FieldDefn) : Except String (List String) :=
  if hasDupIds (fds.map (·.id)) then
    Except.error "duplicate field identifier in the field registry"
  else if hasMissingDep (fds.map (·.id)) fds then
    Except.error "missing dependency declared in the field registry"
  else
    match kahnLoop fds.length fds [] with
    | Except.error e => Except.error e
    | Except.ok done => Except.ok (done.map (·.id))

/-- Whether a list of fields is a valid dependency-respecting order when
the identifiers in `placed` are already available. -/
def topoOKFrom (placed : List String) : List FieldDefn → Bool
  | [] => true
  | fd :: rest => readyB placed fd && topoOKFrom (placed ++ [fd.id]) rest

lemma extractMinReady_spec (placed : List String) :
    ∀ l fd rest, extractMinReady placed l = some (fd, rest) →
      readyB placed fd = true ∧ List.Perm (fd :: rest) l := by
  intro l
  induction l with
  | nil => intro fd rest h; simp [extractMinReady] at h
  | cons x xs ih =>
    intro fd rest h
    rw [extractMinReady] at h
    split at h
    · split at h
      · rename_i hr
        simp at h
        obtain ⟨rfl, rfl⟩ := h
        exact ⟨hr, List.Perm.refl _⟩
      · simp at h
    · rename_i best rest2 hx
      obtain ⟨hb, hbp⟩ := ih best rest2 hx
      split at h
      · rename_i hc
        rw [Bool.and_eq_true] at hc
        simp at h
        obtain ⟨rfl, rfl⟩ := h
        exact ⟨hc.1, List.Perm.refl _⟩
      · simp at h
        obtain ⟨rfl, rfl⟩ := h
        exact ⟨hb, (List.Perm.swap x best rest2).trans (List.Perm.cons x hbp)⟩

lemma extractMinReady_none (placed : List String) :
    ∀ l, extractMinReady placed l = none →
      ∀ g ∈ l, readyB placed g = false := by
  intro l
  induction l with
  | nil => intro _ g hg; simp at hg
  | cons x xs ih =>
    intro h g hg
    rw [extractMinReady] at h
    split at h
    · rename_i hx
      split at h
      · simp at h
      · rename_i hr
        rcases List.mem_cons.mp hg with rfl | hgs
        · exact Bool.eq_false_iff.mpr hr
        · exact ih hx g hgs
    · split at h <;> simp at h

lemma extractMinReady_min (placed : List String) :
    ∀ l fd rest, extractMinReady placed l = some (fd, rest) →
      ∀ g ∈ l, readyB placed g = true → strLt g.id fd.id = false := by
  intro l
  induction l with
  | nil => intro fd rest h; simp [extractMinReady] at h
  | cons x xs ih =>
    intro fd rest h g hg hgr
    rw [extractMinReady] at h
    split at h
    · rename_i hx
      split at h
      · simp at h
        rw [← h.1]
        rcases List.mem_cons.mp hg with hgx | hgs
        · rw [hgx]
          exact strLt_irrefl _
        · exact absurd hgr (by rw [extractMinReady_none placed xs hx g hgs]; simp)
      · simp at h
    · rename_i best rest2 hx
      split at h
      · rename_i hc
        rw [Bool.and_eq_true] at hc
        simp at h
        rw [← h.1]
        rcases List.mem_cons.mp hg with hgx | hgs
        · rw [hgx]
          exact strLt_irrefl _
        · have hgb := ih best rest2 hx g hgs hgr
          cases hv : strLt g.id x.id with
          | false => rfl
          | true =>
            exfalso
            have htr := strLt_trans g.id x.id best.id hv hc.2
            rw [hgb] at htr
            exact Bool.false_ne_true htr
      · rename_i hc
        simp at h
        rw [← h.1]
        rcases List.mem_cons.mp hg with hgx | hgs
        · cases hv : strLt g.id best.id with
          | false => rfl
          | true =>
            exfalso
            rw [hgx] at hgr hv
            exact hc (by rw [hgr, hv]; rfl)
        · exact ih best rest2 hx g hgs hgr

lemma topoOKFrom_append (acc : List FieldDefn) (fd : FieldDefn) :
    ∀ p, topoOKFrom p acc = true →
      readyB (p ++ acc.map (·.id)) fd = true →
      topoOKFrom p (acc ++ [fd]) = true := by
  induction acc with
  | nil =>
    intro p _ hr
    rw [List.map_nil, List.append_nil] at hr
    simp [topoOKFrom, hr]
  | cons a as ih =>
    intro p h hr
    rw [topoOKFrom, Bool.and_eq_true] at h
    rw [List.cons_append, topoOKFrom, Bool.and_eq_true]
    refine ⟨h.1, ih (p ++ [a.id]) h.2 ?_⟩
    rw [List.map_cons] at hr
    rw [List.append_assoc]
    simpa using hr

lemma readyB_mem (placed : List String) (fd : FieldDefn)
    (h : readyB placed fd = true) : ∀ d ∈ fd.deps, d ∈ placed := by
  intro d hd
  have := List.all_eq_true.mp h d hd
  exact of_decide_eq_true this

/-- The position of the first occurrence of an identifier in an order
(the list's length when absent). -/
def posOf (x : String) : List String → ℕ
  | [] => 0
  | y :: ys => if y = x then 0 else posOf x ys + 1

lemma posOf_cons_self (x : String) (l : List String) :
    posOf x (x :: l) = 0 := by
  simp [posOf]

lemma posOf_cons_ne (x y : String) (l : List String) (h : y ≠ x) :
    posOf x (y :: l) = posOf x l + 1 := by
  simp [posOf, h]

lemma topo_rank (done : List FieldDefn) :
    ∀ placed, topoOKFrom placed done = true →
      ((done.map (·.id)).Nodup) →
      (∀ x ∈ done.map (·.id), x ∉ placed) →
      ∀ fd ∈ done, ∀ d ∈ fd.deps, d ∈ done.map (·.id) →
        posOf d (done.map (·.id)) < posOf fd.id (done.map (·.id)) := by
  induction done with
  | nil =>
    intro _ _ _ _ fd hfd
    simp at hfd
  | cons f rest ih =>
    intro placed h hnd hdisj fd hfd d hd hdin
    rw [topoOKFrom, Bool.and_eq_true] at h
    rw [List.map_cons] at hnd hdisj hdin ⊢
    have hnotin : f.id ∉ rest.map (·.id) := (List.nodup_cons.mp hnd).1
    have hndr : (rest.map (·.id)).Nodup := (List.nodup_cons.mp hnd).2
    rcases List.mem_cons.mp hfd with hffd | hfdr
    · have hd2 : d ∈ f.deps := by rw [← hffd]; exact hd
      exact absurd (readyB_mem placed f h.1 d hd2) (hdisj d hdin)
    · have hfdid : fd.id ∈ rest.map (·.id) := List.mem_map_of_mem _ hfdr
      have hne : f.id ≠ fd.id := fun hcontr => hnotin (hcontr ▸ hfdid)
      rw [posOf_cons_ne fd.id f.id _ hne]
      by_cases hdf : d = f.id
      · rw [hdf, posOf_cons_self]
        omega
      · have hfd2 : f.id ≠ d := fun hcontr => hdf hcontr.symm
        rw [posOf_cons_ne d f.id _ hfd2]
        have hdr : d ∈ rest.map (·.id) := by
          rcases List.mem_cons.mp hdin with h1 | h1
          · exact absurd h1 hdf
          · exact h1
        have hdisj2 : ∀ x ∈ rest.map (·.id), x ∉ placed ++ [f.id] := by
          intro x hx
          rw [List.mem_append, List.mem_singleton]
          rintro (hx1 | hxf)
          · exact hdisj x (List.mem_cons_of_mem _ hx) hx1
          · rw [hxf] at hx
            exact hnotin hx
        have := ih (placed ++ [f.id]) h.2 hndr hdisj2 fd hfdr d hd hdr
        omega

lemma kahnLoop_ok_spec :
    ∀ fuel remaining acc done,
      kahnLoop fuel remaining acc = Except.ok done →
      topoOKFrom [] acc = true →
      List.Perm done (acc ++ remaining) ∧ topoOKFrom [] done = true := by
  intro fuel
  induction fuel with
  | zero =>
    intro remaining acc done h hacc
    cases remaining with
    | nil =>
      obtain rfl : acc = done := by
        rw [kahnLoop] at h
        exact Except.ok.inj h
      exact ⟨by simp, hacc⟩
    | cons r rs => simp [kahnLoop] at h
  | succ n ih =>
    intro remaining acc done h hacc
    cases remaining with
    | nil =>
      obtain rfl : acc = done := by
        rw [kahnLoop] at h
        exact Except.ok.inj h
      exact ⟨by simp, hacc⟩
    | cons r rs =>
      rw [kahnLoop] at h
      split at h
      · simp at h
      · rename_i fd rest hex
        obtain ⟨hready, hperm⟩ := extractMinReady_spec (acc.map (·.id)) _ fd rest hex
        have hacc2 : topoOKFrom [] (acc ++ [fd]) = true :=
          topoOKFrom_append acc fd [] hacc (by simpa using hready)
        obtain ⟨hp, ht⟩ := ih rest (acc ++ [fd]) done h hacc2
        refine ⟨?_, ht⟩
        have h1 : List.Perm done (acc ++ (fd :: rest)) := by
          rwa [List.append_assoc] at hp
        exact h1.trans (List.Perm.append_left acc hperm)

lemma kahnLoop_error_msg :
    ∀ fuel remaining acc msg,
      kahnLoop fuel remaining acc = Except.error msg →
      msg = "dependency cycle detected among calculated fields" := by
  intro fuel
  induction fuel with
  | zero =>
    intro remaining acc msg h
    cases remaining with
    | nil => simp [kahnLoop] at h
    | cons r rs =>
      rw [kahnLoop] at h
      exact (Except.error.inj h).symm
  | succ n ih =>
    intro remaining acc msg h
    cases remaining with
    | nil => simp [kahnLoop] at h
    | cons r rs =>
      rw [kahnLoop] at h
      split at h
      · exact (Except.error.inj h).symm
      · rename_i fd rest hex
        exact ih rest (acc ++ [fd]) msg h

lemma buildOrder_error_ne (fds : List FieldDefn) (msg : String)
    (h : buildOrder fds = Except.error msg) : msg ≠ "" := by
  rw [buildOrder] at h
  by_cases h1 : hasDupIds (fds.map (·.id)) = true
  · rw [if_pos h1] at h
    rw [← Except.error.inj h]
    decide
  · rw [if_neg h1] at h
    by_cases h2 : hasMissingDep (fds.map (·.id)) fds = true
    · rw [if_pos h2] at h
      rw [← Except.error.inj h]
      decide
    · rw [if_neg h2] at h
      cases hk : kahnLoop fds.length fds [] with
      | error e =>
        rw [hk] at h
        rw [← Except.error.inj h, kahnLoop_error_msg fds.length fds [] e hk]
        decide
      | ok done => rw [hk] at h; simp at h

lemma buildOrder_ok_rank (fds : List FieldDefn) (order : List String)
    (h : buildOrder fds = Except.ok order) :
    List.Perm order (fds.map (·.id))
      ∧ ∀ fd ∈ fds, ∀ d ∈ fd.deps, posOf d order < posOf fd.id order := by
  rw [buildOrder] at h
  by_cases h1 : hasDupIds (fds.map (·.id)) = true
  · rw [if_pos h1] at h; simp at h
  · rw [if_neg h1] at h
    by_cases h2 : hasMissingDep (fds.map (·.id)) fds = true
    · rw [if_pos h2] at h; simp at h
    · rw [if_neg h2] at h
      cases hk : kahnLoop fds.length fds [] with
      | error e => rw [hk] at h; simp at h
      | ok done =>
        rw [hk] at h
        obtain rfl : done.map (·.id) = order := Except.ok.inj h
        obtain ⟨hperm, htopo⟩ := kahnLoop_ok_spec fds.length fds [] done hk rfl
        rw [List.nil_append] at hperm
        have hpermIds : List.Perm (done.map (·.id)) (fds.map (·.id)) :=
          hperm.map (·.id)
        have hndfds : (fds.map (·.id)).Nodup := by
          rw [hasDupIds] at h1
          simpa using h1
        have hnd : (done.map (·.id)).Nodup := hpermIds.nodup_iff.mpr hndfds
        refine ⟨hpermIds, ?_⟩
        intro fd hfd d hd
        have hfdd : fd ∈ done := hperm.mem_iff.mpr hfd
        have hclosed : d ∈ fds.map (·.id) := by
          by_contra habs
          have : hasMissingDep (fds.map (·.id)) fds = true := by
            rw [hasMissingDep, List.any_eq_true]
            exact ⟨fd, hfd, by rw [List.any_eq_true]; exact ⟨d, hd, by simpa using habs⟩⟩
          exact h2 this
        have hdin : d ∈ done.map (·.id) := hpermIds.mem_iff.mpr hclosed
        exact topo_rank done [] htopo hnd (by simp) fd hfdd d hd hdin

/-- Whether identifier `x` declares identifier `y` among its upstream
dependencies in the registry. -/
def dependsOnB (fds : List FieldDefn) (x y : String) : Bool :=
  fds.any (fun fd => decide (fd.id = x) && decide (y ∈ fd.deps))

/-- Whether each consecutive pair of the identifier list is a dependency
edge of the registry. -/
def chainDepB (fds : List FieldDefn) : List String → Bool
  | [] => true
  | [_] => true
  | x :: y :: rest => dependsOnB fds x y && chainDepB fds (y :: rest)

/-- The registry contains a dependency cycle: an identifier chained back
to itself through dependency edges. -/
def hasCycle (fds : List FieldDefn) : Prop :=
  ∃ x rest, chainDepB fds (x :: rest ++ [x]) = true

lemma chain_rank_lt (fds : List FieldDefn) (rank : String → ℕ)
    (hadj : ∀ u v, dependsOnB fds u v = true → rank v < rank u) :
    ∀ l a b, chainDepB fds (a :: l ++ [b]) = true → rank b < rank a := by
  intro l
  induction l with
  | nil =>
    intro a b h
    have h2 : dependsOnB fds a b = true := by
      simpa [chainDepB] using h
    exact hadj a b h2
  | cons c l2 ih =>
    intro a b h
    have h2 : (dependsOnB fds a c && chainDepB fds (c :: (l2 ++ [b]))) = true := by
      simpa [chainDepB] using h
    rw [Bool.and_eq_true] at h2
    exact Nat.lt_trans (ih c b h2.2) (hadj a c h2.1)

/-- Claim C8: startup construction of the calculation order from the
FieldDefinition registry.  A registry with a dependency on an undeclared
field fails fast with a non-empty configuration error; a successful
construction yields a permutation of the registry's identifiers in which
every field comes strictly after each of its declared dependencies (a
deterministic topological order — determinism is immediate because
buildOrder is a pure function of the registry); a registry containing a
dependency cycle fails fast with a non-empty configuration error instead
of failing at run time; and at every step the algorithm selects a ready
field whose identifier no other ready field's identifier lexicographically
precedes (ties broken by field identifier). -/
theorem calc_order_startup (fds : List FieldDefn) :
    ((∃ fd ∈ fds, ∃ d ∈ fd.deps, d ∉ fds.map (·.id))
        → ∃ msg, buildOrder fds = Except.error msg ∧ msg ≠ "")
      ∧ (∀ order, buildOrder fds = Except.ok order
          → List.Perm order (fds.map (·.id))
            ∧ ∀ fd ∈ fds, ∀ d ∈ fd.deps,
                posOf d order < posOf fd.id order)
      ∧ (hasCycle fds → ∃ msg, buildOrder fds = Except.error msg ∧ msg ≠ "")
      ∧ (∀ placed l fd rest, extractMinReady placed l = some (fd, rest)
          → ∀ g ∈ l, readyB placed g = true → strLt g.id fd.id = false) := by
  refine ⟨?_, ?_, ?_, ?_⟩
  · intro hmiss
    cases hb : buildOrder fds with
    | error msg => exact ⟨msg, rfl, buildOrder_error_ne fds msg hb⟩
    | ok order =>
      exfalso
      rw [buildOrder] at hb
      by_cases h1 : hasDupIds (fds.map (·.id)) = true
      · rw [if_pos h1] at hb; simp at hb
      · rw [if_neg h1] at hb
        have h2 : hasMissingDep (fds.map (·.id)) fds = true := by
          rw [hasMissingDep, List.any_eq_true]
          obtain ⟨fd, hfd, d, hd, hout⟩ := hmiss
          exact ⟨fd, hfd, by rw [List.any_eq_true]; exact ⟨d, hd, by simpa using hout⟩⟩
        rw [if_pos h2] at hb
        simp at hb
  · intro order h
    exact buildOrder_ok_rank fds order h
  · intro hcyc
    cases hb : buildOrder fds with
    | error msg => exact ⟨msg, rfl, buildOrder_error_ne fds msg hb⟩
    | ok order =>
      exfalso
      obtain ⟨x, rest, hchain⟩ := hcyc
      obtain ⟨_, hrank⟩ := buildOrder_ok_rank fds order hb
      have hadj : ∀ u v, dependsOnB fds u v = true
          → posOf v order < posOf u order := by
        intro u v hdep
        rw [dependsOnB, List.any_eq_true] at hdep
        obtain ⟨fd, hfd, hfd2⟩ := hdep
        rw [Bool.and_eq_true] at hfd2
        have hid : fd.id = u := of_decide_eq_true hfd2.1
        have hv : v ∈ fd.deps := of_decide_eq_true hfd2.2
        exact hid ▸ hrank fd hfd v hv
      exact Nat.lt_irrefl _ (chain_rank_lt fds (fun u => posOf u order) hadj rest x x hchain)
  · exact extractMinReady_min

/-- A registry with a dependency on an undeclared field. -/
def regMissing : List FieldDefn := [⟨"pe_ratio", ["eps"]⟩]

/-- A registry whose two fields depend on each other. -/
def regCyclic : List FieldDefn := [⟨"a", ["b"]⟩, ⟨"b", ["a"]⟩]

/-- A small acyclic registry: close is source-extracted, market cap needs
close, the capitalization bucket needs market cap. -/
def regGood : List FieldDefn :=
  [⟨"market_cap", ["close"]⟩, ⟨"close", []⟩, ⟨"cap_bucket", ["market_cap"]⟩]

theorem calc_order_startup_witness :
    (∃ msg, buildOrder regMissing = Except.error msg ∧ msg ≠ "")
      ∧ (List.Perm ["close", "market_cap", "cap_bucket"]
            (regGood.map (·.id))
          ∧ ∀ fd ∈ regGood, ∀ d ∈ fd.deps,
              posOf d ["close", "market_cap", "cap_bucket"]
                < posOf fd.id ["close", "market_cap", "cap_bucket"])
      ∧ (∃ msg, buildOrder regCyclic = Except.error msg ∧ msg ≠ "")
      ∧ strLt "close" "cap_bucket" = false := by
  refine ⟨?_, ?_, ?_, ?_⟩
  · exact (calc_order_startup regMissing).1 ⟨⟨"pe_ratio", ["eps"]⟩, by decide,
      "eps", by decide, by decide⟩
  · exact (calc_order_startup regGood).2.1 ["close", "market_cap", "cap_bucket"]
      (by rfl)
  · exact (calc_order_startup regCyclic).2.2.1 ⟨"a", ["b"], by decide⟩
  · exact (calc_order_startup regGood).2.2.2
      (["cap_bucket", "market_cap"] : List String)
      [⟨"close", []⟩, ⟨"cap_bucket", ["market_cap"]⟩]
      ⟨"cap_bucket", ["market_cap"]⟩ [⟨"close", []⟩] (by decide)
      ⟨"close", []⟩ (by decide) (by decide)

/-! ## Partial source failure (spec sections 4.2 and 8, blueprint 10.6) -/

/-- Modelled from the spec: a field together with its ordered list of
candidate sources (the preference order of its FieldDefinition). -/
structure SourceField where
  id : String
  sources : List String
deriving DecidableEq

/-- The first value offered for a field by its candidate sources, in
preference order. -/
def firstValue (fetch : String → String → Option ℚ) (fieldId : String) :
    List String → Option ℚ
  | [] => none
  | s :: rest =>
    match fetch s fieldId with
    | some v => some v
    | none => firstValue fetch fieldId rest

/-- Modelled from the spec: the value a run commits for one field —
supplied by the most preferred source that offers one, missing when no
source does. -/
def runCommitField (fetch : String → String → Option ℚ) (f : SourceField) :
    Option ℚ :=
  firstValue fetch f.id f.sources

/-- Modelled from the spec: one run over the whole field registry; each
field is fetched and committed independently. -/
def runCommitAll (fetch : String → String → Option ℚ)
    (fields : List SourceField) : List (String × Option ℚ) :=
  fields.map (fun f => (f.id, runCommitField fetch f))

/-- The fetch function of a run in which source `bad` fails for
everything it is asked. -/
def knockOut (fetch : String → String → Option ℚ) (bad : String) :
    String → String → Option ℚ :=
  fun s fid => if s = bad then none else fetch s fid

lemma firstValue_congr (fetch fetch2 : String → String → Option ℚ)
    (fieldId : String) :
    ∀ srcs, (∀ s ∈ srcs, fetch2 s fieldId = fetch s fieldId) →
      firstValue fetch2 fieldId srcs = firstValue fetch fieldId srcs := by
  intro srcs
  induction srcs with
  | nil => intro _; rfl
  | cons s rest ih =>
    intro hsame
    rw [firstValue, firstValue, hsame s (List.mem_cons_self s rest),
      ih (fun t ht => hsame t (List.mem_cons_of_mem s ht))]

lemma firstValue_none_iff (fetch : String → String → Option ℚ)
    (fieldId : String) :
    ∀ srcs, firstValue fetch fieldId srcs = none
      ↔ ∀ s ∈ srcs, fetch s fieldId = none := by
  intro srcs
  induction srcs with
  | nil => simp [firstValue]
  | cons s rest ih =>
    rw [firstValue]
    cases hs : fetch s fieldId with
    | some v =>
      simp only [reduceCtorEq, false_iff]
      intro hall
      rw [hall s (List.mem_cons_self s rest)] at hs
      exact Option.noConfusion hs
    | none =>
      rw [ih]
      constructor
      · intro hall t ht
        rcases List.mem_cons.mp ht with rfl | ht2
        · exact hs
        · exact hall t ht2
      · intro hall t ht
        exact hall t (List.mem_cons_of_mem s ht)

lemma firstValue_some_src (fetch : String → String → Option ℚ)
    (fieldId : String) :
    ∀ srcs v, firstValue fetch fieldId srcs = some v
      → ∃ s ∈ srcs, fetch s fieldId = some v := by
  intro srcs
  induction srcs with
  | nil => intro v h; simp [firstValue] at h
  | cons s rest ih =>
    intro v h
    rw [firstValue] at h
    cases hs : fetch s fieldId with
    | some w =>
      rw [hs] at h
      exact ⟨s, List.mem_cons_self s rest, hs.trans h⟩
    | none =>
      rw [hs] at h
      obtain ⟨t, ht, hv⟩ := ih v h
      exact ⟨t, List.mem_cons_of_mem s ht, hv⟩

/-- Claim C9: when one source fails for everything in a run, a field
owned exclusively by that source goes missing; a field that does not list
the failing source at all commits exactly what it would have committed
anyway; a field supplied by some other source still commits a value in
the same run; any value committed under the failure comes from one of the
field's other sources; and the run still yields one entry per field, so
the failing adapter aborts nothing. -/
theorem partial_source_failure (fetch : String → String → Option ℚ)
    (bad : String) (f : SourceField) (fields : List SourceField) :
    ((∀ s ∈ f.sources, s = bad) → runCommitField (knockOut fetch bad) f = none)
      ∧ (bad ∉ f.sources
          → runCommitField (knockOut fetch bad) f = runCommitField fetch f)
      ∧ ((∃ s ∈ f.sources, s ≠ bad ∧ fetch s f.id ≠ none)
          → ∃ v, runCommitField (knockOut fetch bad) f = some v)
      ∧ (∀ v, runCommitField (knockOut fetch bad) f = some v
          → ∃ s ∈ f.sources, s ≠ bad ∧ fetch s f.id = some v)
      ∧ (runCommitAll (knockOut fetch bad) fields).map Prod.fst
          = fields.map (·.id) := by
  refine ⟨?_, ?_, ?_, ?_, by simp [runCommitAll]⟩
  · intro hexcl
    rw [runCommitField, firstValue_none_iff]
    intro s hs
    rw [knockOut, if_pos (hexcl s hs)]
  · intro hout
    rw [runCommitField, runCommitField]
    refine firstValue_congr fetch (knockOut fetch bad) f.id f.sources ?_
    intro s hs
    refine (if_neg (fun hc : s = bad => hout ?_))
    rw [← hc]
    exact hs
  · rintro ⟨s, hs, hne, hv⟩
    cases hrun : runCommitField (knockOut fetch bad) f with
    | some v => exact ⟨v, rfl⟩
    | none =>
      exfalso
      rw [runCommitField, firstValue_none_iff] at hrun
      have := hrun s hs
      rw [knockOut, if_neg hne] at this
      exact hv this
  · intro v hv
    rw [runCommitField] at hv
    obtain ⟨s, hs, hval⟩ := firstValue_some_src (knockOut fetch bad) f.id f.sources v hv
    rw [knockOut] at hval
    by_cases hsb : s = bad
    · rw [if_pos hsb] at hval
      exact Option.noConfusion hval
    · rw [if_neg hsb] at hval
      exact ⟨s, hs, hsb, hval⟩

/-- A fetch table: the primary source offers both fields, the secondary
offers only the price. -/
def fetchSample : String → String → Option ℚ :=
  fun s fid =>
    if s = "primary" then (if fid = "price" then some 100 else some 7)
    else if s = "secondary" ∧ fid = "price" then some 101 else none

/-- A field served by primary and secondary. -/
def priceField : SourceField := ⟨"price", ["primary", "secondary"]⟩

/-- A field owned exclusively by the primary source. -/
def epsField : SourceField := ⟨"eps", ["primary"]⟩

theorem partial_source_failure_witness :
    runCommitField (knockOut fetchSample "primary") epsField = none
      ∧ (∃ v, runCommitField (knockOut fetchSample "primary") priceField = some v)
      ∧ runCommitField (knockOut fetchSample "secondary") epsField
          = runCommitField fetchSample epsField := by
  refine ⟨?_, ?_, ?_⟩
  · exact (partial_source_failure fetchSample "primary" epsField []).1
      (by decide)
  · exact (partial_source_failure fetchSample "primary" priceField []).2.2.1
      ⟨"secondary", by decide, by decide, by decide⟩
  · exact (partial_source_failure fetchSample "secondary" epsField []).2.1
      (by decide)

/-! ## Frontend StatusBadge (src/frontend/src/pages/DataPipeline.jsx) -/

/-- One entry of the StatusBadge statusConfig table: the badge color
class, its label, and whether it pulses (the JSX leaves pulse undefined —
falsy — everywhere but running). -/
structure BadgeConfig where
  color : String
  label : String
  pulse : Bool
deriving DecidableEq

/-- The own properties of the statusConfig object literal of the
StatusBadge component, keyed by the status string; none means the
literal itself declares no such key. -/
def statusConfigLookup (status : String) : Option BadgeConfig :=
  if status = "idle" then some ⟨"bg-gray-500", "Idle", false⟩
  else if status = "running" then some ⟨"bg-blue-500", "Running", true⟩
  else if status = "scheduled" then some ⟨"bg-green-500", "Scheduled", false⟩
  else if status = "paused" then some ⟨"bg-yellow-500", "Paused", false⟩
  else if status = "error" then some ⟨"bg-red-500", "Error", false⟩
  else if status = "success" then some ⟨"bg-green-500", "Success", false⟩
  else if status = "partial_success" then some ⟨"bg-yellow-500", "Partial", false⟩
  else if status = "failed" then some ⟨"bg-red-500", "Failed", false⟩
  else if status = "pending" then some ⟨"bg-gray-400", "Pending", false⟩
  else if status = "unavailable" then some ⟨"bg-red-600", "Unavailable", false⟩
  else none

/-- The property names a plain object literal inherits from
Object.prototype, every one of them bound to a truthy value (a function,
or Object.prototype itself for the accessor named by two underscores,
proto, two underscores). -/
def objectProtoMembers : List String :=
  ["constructor", "hasOwnProperty", "isPrototypeOf", "propertyIsEnumerable",
   "toLocaleString", "toString", "valueOf", "__proto__",
   "__defineGetter__", "__defineSetter__", "__lookupGetter__",
   "__lookupSetter__"]

/-- What the JavaScript property access statusConfig[status] yields: an
own entry of the literal, a truthy value inherited from Object.prototype
(which is not a badge configuration), or undefined. -/
inductive JsProperty where
  | own (c : BadgeConfig)
  | inheritedTruthy
  | undef
deriving DecidableEq

/-- The property access statusConfig[status] with JavaScript semantics:
an own key of the literal wins, otherwise the access walks the prototype
chain and hits Object.prototype members, and only failing both is it
undefined. -/
def statusConfigAccess (status : String) : JsProperty :=
  match statusConfigLookup status with
  | some c => JsProperty.own c
  | none =>
    if status ∈ objectProtoMembers then JsProperty.inheritedTruthy
    else JsProperty.undef

/-- The Idle entry of the table, the fallback of
`statusConfig[status] || statusConfig.idle`. -/
def idleConfig : BadgeConfig := ⟨"bg-gray-500", "Idle", false⟩

/-- The configuration StatusBadge renders, as the component computes it:
`statusConfig[status] || statusConfig.idle`.  The badge never throws:
some c means the rendered config is the table entry c (an own hit, or
the Idle fallback when the access is undefined — also when the status
prop itself is undefined); none means the access hit a truthy value
inherited from Object.prototype, so the `||` fallback does not engage
and the rendered config is not a table entry (its label and color read
as undefined). -/
def statusBadgeConfig (status : Option String) : Option BadgeConfig :=
  match status with
  | none => some idleConfig
  | some s =>
    match statusConfigAccess s with
    | JsProperty.own c => some c
    | JsProperty.inheritedTruthy => none
    | JsProperty.undef => some idleConfig

/-- The pipeline status DataPipeline passes to StatusBadge:
`status?.status || "unavailable"` — a missing status object, a missing
status string, or an empty (falsy) status string all map to
"unavailable". -/
def pipelineStatusOf (status : Option (Option String)) : String :=
  match status with
  | none => "unavailable"
  | some none => "unavailable"
  | some (some s) => if s = "" then "unavailable" else s

/-- The ten status strings the statusConfig table knows. -/
def knownStatuses : List String :=
  ["idle", "running", "scheduled", "paused", "error", "success",
   "partial_success", "failed", "pending", "unavailable"]

/-- Claim C10, counterexample: the claim says every input outside the
ten known statuses falls back to the Idle configuration, but the status
string "constructor" is outside the table and the JavaScript access
statusConfig["constructor"] inherits a truthy value from
Object.prototype, so the `||` fallback does not engage and the rendered
config is not the Idle entry (nor any table entry). -/
theorem status_badge_proto_counterexample :
    "constructor" ∉ knownStatuses
      ∧ statusBadgeConfig (some "constructor") ≠ some idleConfig
      ∧ statusBadgeConfig (some "constructor") = none := by
  refine ⟨by decide, by decide, by decide⟩

/-- Claim C10, amended: StatusBadge never throws — for each of the ten
known statuses it renders exactly that status's configured label, color
and pulse flag; for an undefined status, and for any unknown status
string that is not an inherited Object.prototype property name, it falls
back to the Idle configuration; for an unknown status string that names
an Object.prototype member the truthy inherited value suppresses the
fallback and the rendered config is no table entry; and a missing
pipeline status object is rendered as the status "unavailable". -/
theorem status_badge_total (s : String) :
    (∀ c, statusConfigLookup s = some c → statusBadgeConfig (some s) = some c)
      ∧ (statusConfigLookup s = none → s ∉ objectProtoMembers
          → statusBadgeConfig (some s) = some idleConfig)
      ∧ statusBadgeConfig none = some idleConfig
      ∧ (s ∉ knownStatuses → s ∉ objectProtoMembers
          → statusBadgeConfig (some s) = some idleConfig)
      ∧ (statusConfigLookup s = none → s ∈ objectProtoMembers
          → statusBadgeConfig (some s) = none)
      ∧ statusBadgeConfig (some "idle") = some ⟨"bg-gray-500", "Idle", false⟩
      ∧ statusBadgeConfig (some "running") = some ⟨"bg-blue-500", "Running", true⟩
      ∧ statusBadgeConfig (some "scheduled")
          = some ⟨"bg-green-500", "Scheduled", false⟩
      ∧ statusBadgeConfig (some "paused") = some ⟨"bg-yellow-500", "Paused", false⟩
      ∧ statusBadgeConfig (some "error") = some ⟨"bg-red-500", "Error", false⟩
      ∧ statusBadgeConfig (some "success") = some ⟨"bg-green-500", "Success", false⟩
      ∧ statusBadgeConfig (some "partial_success")
          = some ⟨"bg-yellow-500", "Partial", false⟩
      ∧ statusBadgeConfig (some "failed") = some ⟨"bg-red-500", "Failed", false⟩
      ∧ statusBadgeConfig (some "pending") = some ⟨"bg-gray-400", "Pending", false⟩
      ∧ statusBadgeConfig (some "unavailable")
          = some ⟨"bg-red-600", "Unavailable", false⟩
      ∧ pipelineStatusOf none = "unavailable"
      ∧ pipelineStatusOf (some none) = "unavailable"
      ∧ pipelineStatusOf (some (some "")) = "unavailable"
      ∧ pipelineStatusOf (some (some "running")) = "running" := by
  have hknown : s ∉ knownStatuses → statusConfigLookup s = none := by
    intro hout
    rw [knownStatuses] at hout
    simp only [List.mem_cons, List.not_mem_nil, or_false, not_or] at hout
    obtain ⟨h1, h2, h3, h4, h5, h6, h7, h8, h9, h10⟩ := hout
    rw [statusConfigLookup, if_neg h1, if_neg h2, if_neg h3, if_neg h4,
      if_neg h5, if_neg h6, if_neg h7, if_neg h8, if_neg h9, if_neg h10]
  refine ⟨?_, ?_, rfl, ?_, ?_, by decide, by decide, by decide, by decide,
    by decide, by decide, by decide, by decide, by decide, by decide,
    rfl, rfl, by decide, by decide⟩
  · intro c hc
    rw [statusBadgeConfig, statusConfigAccess, hc]
  · intro hnone hproto
    rw [statusBadgeConfig, statusConfigAccess, hnone, if_neg hproto]
  · intro hout hproto
    rw [statusBadgeConfig, statusConfigAccess, hknown hout, if_neg hproto]
  · intro hnone hproto
    rw [statusBadgeConfig, statusConfigAccess, hnone, if_pos hproto]

theorem status_badge_total_witness :
    (statusConfigLookup "bogus" = none ∧ "bogus" ∉ objectProtoMembers
        ∧ statusBadgeConfig (some "bogus") = some idleConfig)
      ∧ ("" ∉ knownStatuses ∧ "" ∉ objectProtoMembers
          ∧ statusBadgeConfig (some "") = some idleConfig)
      ∧ (statusConfigLookup "toString" = none
          ∧ "toString" ∈ objectProtoMembers
          ∧ statusBadgeConfig (some "toString") = none) := by
  refine ⟨⟨by decide, by decide, ?_⟩, ⟨by decide, by decide, ?_⟩,
    ⟨by decide, by decide, ?_⟩⟩
  · exact (status_badge_total "bogus").2.1 (by decide) (by decide)
  · exact (status_badge_total "").2.2.2.1 (by decide) (by decide)
  · exact (status_badge_total "toString").2.2.2.2.1 (by decide) (by decide)

end StockPulse
